import Mathlib

/-!
# Verification of the SP1 arithmetization excerpt

Shallow embedding of two source files:

* `src/core/src/field/mod.rs` — the `FieldLTUChip`: its column layout,
  `generate_trace` (packing events into physical rows, wrapping-difference
  witness computation, overflow panic, padding) and `eval` (the polynomial
  constraints and the interaction claim).
* `src/crates/core/machine/src/riscv/shape.rs` — `CoreShapeConfig`:
  `fix_preprocessed_shape`, `fix_shape` and `generate_all_allowed_shapes`.

Machine integers (`u32`) are modelled as `Nat` with explicit `% 2 ^ 32`
where the Rust code wraps; field elements are values of an abstract
commutative ring `R` (the code is generic over `F: PrimeField`), with
`from_canonical_u32 x` embedded as the natural-number cast `(x : R)`;
panics are modelled as `Except.error`.
-/

namespace SP1

/-! ## Field chip: data model (`src/core/src/field/mod.rs`) -/

/-- Constant `LTU_NB_BITS` = 29, the range parameter of the chip. -/
def LTU_NB_BITS : Nat := 29

/-- The packing factor `WIDTH` = 4: logical sub-rows per physical row. -/
def WIDTH : Nat := 4

/-- Constant `NUM_FIELD_COLS = size_of::<FieldLTUCols<u8>>()`: the struct holds
`lt`, `b`, `c`, `diff_bits : [T; LTU_NB_BITS + 1]` and `is_real`,
so 3 + 30 + 1 = 34 logical columns. -/
def NUM_FIELD_COLS : Nat := 3 + (LTU_NB_BITS + 1) + 1

/-- A `FieldEvent` (`crate::field::event::FieldEvent`): operands are `u32`
(values `< 2 ^ 32`), `ltu` the precomputed less-than flag. -/
structure FieldEvent where
  b : Nat
  c : Nat
  ltu : Bool
  deriving DecidableEq, Repr

/-- The column layout `FieldLTUCols<T>` of one logical sub-row. -/
structure FieldLTUCols (R : Type) where
  lt : R
  b : R
  c : R
  diff_bits : Fin (LTU_NB_BITS + 1) → R
  is_real : R

/-- The packed layout `PackedFieldLTUCols<T>`: `WIDTH` sub-rows. -/
structure PackedFieldLTUCols (R : Type) where
  packed_chips : Fin WIDTH → FieldLTUCols R

/-- Bit `i` of `diff` (little-endian): `(diff >> i) & 1`. -/
def nthBit (d i : Nat) : Nat := d / 2 ^ i % 2

/-- Wrapping subtraction `u32::wrapping_sub`. -/
def wrappingSub (a b : Nat) : Nat := (a + (2 ^ 32 - b % 2 ^ 32)) % 2 ^ 32

/-- Wrapping addition `u32::wrapping_add`. -/
def wrappingAdd (a b : Nat) : Nat := (a + b) % 2 ^ 32

/-- The expression `event.b.wrapping_sub(event.c).wrapping_add(1 << LTU_NB_BITS)`:
the difference witness `generate_trace` computes for one event. -/
def diffU32 (b c : Nat) : Nat := wrappingAdd (wrappingSub b c) (2 ^ LTU_NB_BITS)

/-- The all-zero sub-row (`[F::zero(); ..]` viewed through the layout). -/
def zeroCols (R : Type) [CommRing R] : FieldLTUCols R :=
  { lt := 0, b := 0, c := 0, diff_bits := fun _ => 0, is_real := 0 }

/-- Reading logical sub-row `i` out of a flattened physical row (the
`Borrow`-view of `[F; NUM_FIELD_COLS * WIDTH]`); layout order is
`lt, b, c, diff_bits[0..30], is_real`. -/
def subRowAt (R : Type) [CommRing R] (row : List R) (i : Nat) : FieldLTUCols R :=
  { lt := row.getD (NUM_FIELD_COLS * i) 0
    b := row.getD (NUM_FIELD_COLS * i + 1) 0
    c := row.getD (NUM_FIELD_COLS * i + 2) 0
    diff_bits := fun j => row.getD (NUM_FIELD_COLS * i + 3 + j) 0
    is_real := row.getD (NUM_FIELD_COLS * i + 3 + (LTU_NB_BITS + 1)) 0 }

/-! ## Field chip: `generate_trace` -/

/-- One iteration of the event loop in `generate_trace`.
In the source, `let mut cols = packed_cols.packed_chips[i];` copies the
sub-row (`FieldLTUCols` is `Copy`), so every subsequent write lands in the
local copy `cols` and never reaches `row`; only the overflow check has an
observable effect.  The iteration is embedded exactly so: the copy is
built, the check may abort, and the unchanged `row` is returned. -/
def eventLoopIter (R : Type) [CommRing R] (row : List R) (i : Nat)
    (event : FieldEvent) : Except String (List R) :=
  -- let mut cols = packed_cols.packed_chips[i];  (a copy)
  let cols := subRowAt R row i
  let diff := diffU32 event.b event.c
  -- cols.b = ..; cols.c = ..; cols.diff_bits[i] = ..;  (writes to the copy)
  let cols := { cols with
    b := ((event.b : Nat) : R)
    c := ((event.c : Nat) : R)
    diff_bits := fun j => ((nthBit diff (j : Nat) : Nat) : R) }
  -- let max = 1 << LTU_NB_BITS; if diff >= max { panic!("diff overflow"); }
  if 2 ^ LTU_NB_BITS ≤ diff then Except.error "diff overflow"
  else
    -- cols.lt = ..; cols.is_real = F::one();  (writes to the copy)
    let cols := { cols with
      lt := if event.ltu then (1 : R) else 0
      is_real := 1 }
    -- `cols` is dropped at the end of the iteration; `row` was never written.
    let _ := cols
    Except.ok row

/-- A fold that threads state through fallible steps: the first panic
aborts the loop. -/
def threadLoop {σ α ε : Type} (f : σ → α → Except ε σ) : List α → σ → Except ε σ
  | [], s => Except.ok s
  | a :: rest, s =>
    match f s a with
    | Except.error e => Except.error e
    | Except.ok s' => threadLoop f rest s'

/-- The loop `for (i, event) in events.iter().enumerate()`: run the
iterations in order, threading the row. -/
def eventLoop (R : Type) [CommRing R] (l : List (Nat × FieldEvent))
    (row : List R) : Except String (List R) :=
  threadLoop (fun row ie => eventLoopIter R row ie.1 ie.2) l row

/-- The closure body of `par_chunks_exact(WIDTH).map(..)`: a physical row,
starting from `[F::zero(); NUM_FIELD_COLS * WIDTH]`, with the event loop
run over the chunk. -/
def genPackedRow (R : Type) [CommRing R] (events : List FieldEvent) :
    Except String (List R) :=
  eventLoop R events.enum (List.replicate (NUM_FIELD_COLS * WIDTH) (0 : R))

/-- Collecting `iter().map(f)` where each element may panic: the first
panic aborts; otherwise the list of results. -/
def mapMExcept {α β ε : Type} (f : α → Except ε β) : List α → Except ε (List β)
  | [] => Except.ok []
  | a :: l =>
    match f a with
    | Except.error e => Except.error e
    | Except.ok b =>
      match mapMExcept f l with
      | Except.error e => Except.error e
      | Except.ok bs => Except.ok (b :: bs)

/-- Chunking `par_chunks_exact(WIDTH)` with `WIDTH = 4`: the complete chunks of
size 4; a trailing remainder of fewer than 4 elements yields no chunk. -/
def chunksExact : List FieldEvent → List (List FieldEvent)
  | a :: b :: c :: d :: rest => [a, b, c, d] :: chunksExact rest
  | _ => []

/-- Modelled from the spec: `pad_to_power_of_two` (`crate::utils`, not under
`src/`).  "Given a table with `R` real rows and fixed column width `W`,
returns a table with `2 ^ ⌈log2 R⌉` rows (minimum 1), original rows
unchanged, appended rows all-zero." -/
def pad_to_power_of_two (R : Type) [CommRing R] (w : Nat) (values : List R) :
    List R :=
  let rows := values.length / w
  let target := max 1 (2 ^ Nat.clog 2 rows)
  values ++ List.replicate (target * w - values.length) 0

/-- The `rows` vector of `generate_trace` before flattening and padding:
one physical row per complete chunk of `WIDTH` events. -/
def generateTraceRows (R : Type) [CommRing R] (field_events : List FieldEvent) :
    Except String (List (List R)) :=
  mapMExcept (genPackedRow R) (chunksExact field_events)

/-- The method `FieldLTUChip::generate_trace`: build the packed rows, flatten them and
pad to a power of two.  The input record is represented by its
`field_events` list. -/
def generate_trace (R : Type) [CommRing R] (field_events : List FieldEvent) :
    Except String (List R) :=
  match generateTraceRows R field_events with
  | Except.error e => Except.error e
  | Except.ok rows =>
    Except.ok (pad_to_power_of_two R (NUM_FIELD_COLS * WIDTH) rows.flatten)

/-! ## Field chip: `eval` (`impl Air for FieldLTUChip`)

`builder.assert_eq(a, b)` is embedded as the polynomial `a - b`,
`builder.assert_bool(x)` as `x * (x - 1)`, and
`builder.when(g).assert_eq(a, b)` as `g * (a - b)`; a row satisfies the
registered constraints iff every one of these polynomials is zero.
`builder.receive_field_op(lt, b, c, is_real)` is recorded as an
interaction tuple. -/

/-- One interaction claim: `receive_field_op(lt, b, c, mult)`. -/
structure FieldInteraction (R : Type) where
  lt : R
  b : R
  c : R
  mult : R
  deriving DecidableEq

/-- The constraints `eval` asserts for one logical sub-row `local`, in
source order: the degree-normalization dummy, `lt` boolean, the 30
`diff_bits` booleans, the gated bit decomposition of `b - c + 2^29`, and
the gated output equation. -/
def eval_constraints_sub (R : Type) [CommRing R] (l : FieldLTUCols R) : List R :=
  -- builder.assert_eq(local.b * local.b * local.b, local.b * local.b * local.b)
  [l.b * l.b * l.b - l.b * l.b * l.b,
  -- builder.assert_bool(local.lt)
   l.lt * (l.lt - 1)]
  -- for i in 0..local.diff_bits.len() { builder.assert_bool(local.diff_bits[i]) }
  ++ (List.ofFn fun i : Fin (LTU_NB_BITS + 1) =>
        l.diff_bits i * (l.diff_bits i - 1))
  -- builder.when(local.is_real).assert_eq(local.b - local.c + 2^LTU_NB_BITS, diff)
  ++ [l.is_real * ((l.b - l.c + ((2 ^ LTU_NB_BITS : Nat) : R))
        - ∑ i : Fin (LTU_NB_BITS + 1), l.diff_bits i * ((2 ^ (i : Nat) : Nat) : R)),
  -- builder.when(local.is_real).assert_eq(local.lt, 1 - local.diff_bits[LTU_NB_BITS])
      l.is_real * (l.lt - (1 - l.diff_bits (Fin.last LTU_NB_BITS)))]

/-- The interaction claims `eval` emits for one logical sub-row:
exactly one `receive_field_op(lt, b, c, is_real)`. -/
def eval_interactions_sub (R : Type) (l : FieldLTUCols R) : List (FieldInteraction R) :=
  [⟨l.lt, l.b, l.c, l.is_real⟩]

/-- All constraints `eval` asserts on one physical row: the sub-row
constraints of each of the `WIDTH` packed sub-rows. -/
def eval_constraints (R : Type) [CommRing R] (row : PackedFieldLTUCols R) : List R :=
  (List.ofFn fun j : Fin WIDTH => eval_constraints_sub R (row.packed_chips j)).flatten

/-- All interaction claims `eval` emits on one physical row. -/
def eval_interactions (R : Type) (row : PackedFieldLTUCols R) : List (FieldInteraction R) :=
  (List.ofFn fun j : Fin WIDTH => eval_interactions_sub R (row.packed_chips j)).flatten

/-! ## Bit decomposition arithmetic -/

/-- Resumming the first `n` bits of `d` with powers of two. -/
def sumBits (n d : Nat) : Nat := ∑ i ∈ Finset.range n, nthBit d i * 2 ^ i

/-- The spec's round-trip formula taken at its words (for comparison with
the code's `diffU32`): `d = (b - c) mod 2^N + 2^N`, the subtraction over
the integers and `mod` the mathematical nonnegative remainder. -/
def specDiff (b c : Nat) : Nat :=
  (((b : Int) - (c : Int)) % ((2 ^ LTU_NB_BITS : Nat) : Int)).toNat + 2 ^ LTU_NB_BITS

theorem sumBits_eq_mod (n d : Nat) : sumBits n d = d % 2 ^ n := by
  induction n with
  | zero => simp [sumBits, Nat.mod_one]
  | succ n ih =>
    have hmul : d % (2 ^ n * 2) = d % 2 ^ n + 2 ^ n * (d / 2 ^ n % 2) :=
      Nat.mod_mul
    simp only [sumBits, Finset.sum_range_succ] at *
    rw [ih, pow_succ, hmul, nthBit]
    ring

/-- The wrapping difference the code computes, on the supported operand
range: no wraparound at width 32 remains, and the result is below `2^30`. -/
theorem diffU32_eq (b c : Nat) (hb : b < 2 ^ 32) (hc : c < 2 ^ 32)
    (h1 : c ≤ b + 2 ^ LTU_NB_BITS) (h2 : b < c + 2 ^ LTU_NB_BITS) :
    diffU32 b c = b + 2 ^ LTU_NB_BITS - c := by
  have h32 : (2 : Nat) ^ 32 = 4294967296 := by norm_num
  have h29 : (2 : Nat) ^ 29 = 536870912 := by norm_num
  simp only [diffU32, wrappingAdd, wrappingSub, LTU_NB_BITS, h32, h29] at *
  omega

/-! ## Claim theorems: the field chip -/

/-- C3 (counterexample): with the spec's formula
`d = (b - c) mod 2^N + 2^N` the claim fails at `b = 5`, `c = 10`:
`d = 2^30 - 5` has top bit 1, so the complement of the top bit is `0`,
yet `b < c`.  (The resummed decomposition does reproduce `d`; it is the
top-bit clause of the claim that is false.) -/
theorem specDiff_round_trip_cex :
    ¬ (sumBits (LTU_NB_BITS + 1) (specDiff 5 10) = specDiff 5 10 ∧
        1 - nthBit (specDiff 5 10) LTU_NB_BITS = (if (5 : Nat) < 10 then 1 else 0)) := by
  have h : specDiff 5 10 = 1073741819 := by
    simp only [specDiff, LTU_NB_BITS]
    decide
  intro hcl
  rw [h] at hcl
  have h2 := hcl.2
  norm_num [nthBit, LTU_NB_BITS] at h2

/-- C3 (amended): for operands in the supported range
`-2^N ≤ b - c < 2^N` (as `u32` values), the wrapping difference the code
computes, `d = (b - c + 2^N) mod 2^32`, resums from its `N + 1`-bit
decomposition exactly, and the complement of its top bit is `b < c`. -/
theorem diffU32_round_trip (b c : Nat) (hb : b < 2 ^ 32) (hc : c < 2 ^ 32)
    (h1 : c ≤ b + 2 ^ LTU_NB_BITS) (h2 : b < c + 2 ^ LTU_NB_BITS) :
    sumBits (LTU_NB_BITS + 1) (diffU32 b c) = diffU32 b c ∧
    1 - nthBit (diffU32 b c) LTU_NB_BITS = (if b < c then 1 else 0) := by
  have hd := diffU32_eq b c hb hc h1 h2
  have h29 : (2 : Nat) ^ 29 = 536870912 := by norm_num
  have h30 : (2 : Nat) ^ 30 = 1073741824 := by norm_num
  constructor
  · rw [sumBits_eq_mod, hd]
    simp only [LTU_NB_BITS, h29, h30] at *
    omega
  · rw [hd, nthBit]
    simp only [LTU_NB_BITS, h29] at *
    split
    · omega
    · omega

/-- C3 (witness): the amended round-trip at the anchor pair `b = 10`,
`c = 5`. -/
theorem diffU32_round_trip_witness :
    sumBits (LTU_NB_BITS + 1) (diffU32 10 5) = diffU32 10 5 ∧
    1 - nthBit (diffU32 10 5) LTU_NB_BITS = (if (10 : Nat) < 5 then 1 else 0) :=
  diffU32_round_trip 10 5 (by norm_num) (by norm_num) (by norm_num [LTU_NB_BITS])
    (by norm_num [LTU_NB_BITS])

/-- C1 (code bug): on a record with one complete packing group of four
real events `b = 5, c = 10, ltu = true` (in range, no overflow panic),
`generate_trace` emits a single physical row that is still entirely at its
zero-initialized value: in the source, `let mut cols =
packed_cols.packed_chips[i];` copies the sub-row, so every write lands in
the copy and the row keeps `is_real = 0` and zero operands everywhere. -/
theorem generate_trace_row_left_zero :
    generateTraceRows Int
        [⟨5, 10, true⟩, ⟨5, 10, true⟩, ⟨5, 10, true⟩, ⟨5, 10, true⟩]
      = Except.ok [List.replicate (NUM_FIELD_COLS * WIDTH) 0] ∧
    (subRowAt Int (List.replicate (NUM_FIELD_COLS * WIDTH) 0) 0).is_real = 0 := by
  constructor
  · rfl
  · rfl

/-- C2 (code bug): the anchor event `b = 10, c = 5` computes
`d = 2^29 + 5`, which fits in `N + 1 = 30` bits, yet `generate_trace`
panics "diff overflow": the overflow check compares against
`1 << LTU_NB_BITS` instead of `1 << (LTU_NB_BITS + 1)`. -/
theorem generate_trace_panics_on_anchor :
    generate_trace Int
        [⟨10, 5, false⟩, ⟨10, 5, false⟩, ⟨10, 5, false⟩, ⟨10, 5, false⟩]
      = Except.error "diff overflow" ∧
    diffU32 10 5 < 2 ^ (LTU_NB_BITS + 1) := by
  constructor
  · rfl
  · norm_num [diffU32, wrappingAdd, wrappingSub, LTU_NB_BITS]

/-! ## Shape configuration (`src/crates/core/machine/src/riscv/shape.rs`)

Chips (`RiscvAir` values) are identified by their `name()` strings; the
`HashMap<RiscvAir<F>, Vec<usize>>` is modelled as an association list.
The externally computed height listings `RiscvAir::preprocessed_heights`
and `RiscvAir::heights` (not part of the shown sources) are passed in as
explicit `(chip, height)` listings.  Each distinct panic site is one
constructor of `ShapeError`. -/

/-- The panic sites of `shape.rs`. -/
inductive ShapeError where
  /-- The panic of `self.allowed_log_heights.get(&air).unwrap()` on a missing key. -/
  | unwrapFailed (chip : String)
  /-- The panic "air .. not allowed at height ..". -/
  | notAllowedAtHeight (chip : String) (height : Nat)
  /-- The panic "cannot fix preprocessed shape twice". -/
  | preprocessedShapeAlreadyFixed
  /-- The panic "cannot fix shape twice". -/
  | shapeAlreadyFixed
  /-- The panic "program shape not set". -/
  | programShapeNotSet
  deriving DecidableEq, Repr

/-- Struct `CoreShape`, a name → log-height map (`inner`). -/
structure CoreShape where
  inner : List (String × Nat)
  deriving DecidableEq, Repr

/-- Struct `Program`: only the `preprocessed_shape` slot matters here. -/
structure Program where
  preprocessed_shape : Option CoreShape
  deriving DecidableEq, Repr

/-- Struct `ExecutionRecord`: its program and its optional `shape`. -/
structure ExecutionRecordSh where
  program : Program
  shape : Option CoreShape
  deriving DecidableEq, Repr

/-- Struct `CoreShapeConfig` with `allowed_log_heights`, keyed by chip name. -/
structure CoreShapeConfig where
  allowed_log_heights : List (String × List Nat)
  deriving DecidableEq, Repr

/-- The lookup `self.allowed_log_heights.get(&air)`. -/
def lookupHeights (cfg : CoreShapeConfig) (chip : String) : Option (List Nat) :=
  (cfg.allowed_log_heights.find? (fun p => p.1 == chip)).map Prod.snd

/-- The inner `for` loop of both fixing functions:
`for &allowed_log_height in .. { if height <= (1 << allowed_log_height)
{ return (air.name(), allowed_log_height); } }` — the first allowed
log-height whose power of two is at least `height`, else the fall-through
panic. -/
def selectLogHeight (allowed : List Nat) (height : Nat) : Option Nat :=
  match allowed with
  | [] => none
  | a :: rest => if height ≤ 2 ^ a then some a else selectLogHeight rest height

/-- The per-chip body of the `map` in `fix_preprocessed_shape` /
`fix_shape`: unwrap the chip's allowed heights, then select. -/
def fixChipHeight (cfg : CoreShapeConfig) (chip : String) (height : Nat) :
    Except ShapeError (String × Nat) :=
  match lookupHeights cfg chip with
  | none => Except.error (ShapeError.unwrapFailed chip)
  | some allowed =>
    match selectLogHeight allowed height with
    | some l => Except.ok (chip, l)
    | none => Except.error (ShapeError.notAllowedAtHeight chip height)

/-- The method `CoreShapeConfig::fix_preprocessed_shape`; `heights` stands for
`RiscvAir::preprocessed_heights(program)`. -/
def fix_preprocessed_shape (cfg : CoreShapeConfig)
    (heights : List (String × Nat)) (program : Program) :
    Except ShapeError Program :=
  if program.preprocessed_shape.isSome then
    Except.error ShapeError.preprocessedShapeAlreadyFixed
  else
    match mapMExcept (fun ah => fixChipHeight cfg ah.1 ah.2) heights with
    | Except.error e => Except.error e
    | Except.ok shape =>
      Except.ok { program with preprocessed_shape := some ⟨shape⟩ }

/-- The method `CoreShapeConfig::fix_shape`; `heights` stands for
`RiscvAir::heights(record)`. -/
def fix_shape (cfg : CoreShapeConfig) (heights : List (String × Nat))
    (record : ExecutionRecordSh) : Except ShapeError ExecutionRecordSh :=
  if record.program.preprocessed_shape.isNone then
    Except.error ShapeError.programShapeNotSet
  else if record.shape.isSome then
    Except.error ShapeError.shapeAlreadyFixed
  else
    match mapMExcept (fun ah => fixChipHeight cfg ah.1 ah.2) heights with
    | Except.error e => Except.error e
    | Except.ok shape =>
      Except.ok { record with shape := some ⟨shape⟩ }

/-- The product `itertools::multi_cartesian_product` over a list of lists, in source
order; on an empty list of iterators it yields nothing (itertools'
behavior), and that base case is kept. -/
def multiCartesianProduct {α : Type} : List (List α) → List (List α)
  | [] => []
  | [l] => l.map (fun x => [x])
  | l :: ls => l.flatMap (fun x => (multiCartesianProduct ls).map (fun r => x :: r))

/-- The method `CoreShapeConfig::generate_all_allowed_shapes`: per chip the choice
list `once((name, None)).chain(heights.map(|h| (name, Some(h))))`, the
multi-cartesian product of those, and each product filtered down to its
present entries. -/
def generate_all_allowed_shapes (cfg : CoreShapeConfig) :
    List (List (String × Nat)) :=
  (multiCartesianProduct
      (cfg.allowed_log_heights.map (fun p =>
        (p.1, (none : Option Nat)) :: p.2.map (fun h => (p.1, some h))))).map
    (fun choices => choices.filterMap (fun nh => nh.2.map (fun h => (nh.1, h))))

/-! ## Helper lemmas about the shape operations -/

theorem mapMExcept_ok_iff {α β ε : Type} (f : α → Except ε β) (l : List α)
    (out : List β) :
    mapMExcept f l = Except.ok out ↔
      List.Forall₂ (fun a b => f a = Except.ok b) l out := by
  induction l generalizing out with
  | nil => cases out <;> simp [mapMExcept]
  | cons a l ih =>
    cases hfa : f a with
    | error e =>
      cases out <;> simp [mapMExcept, hfa]
    | ok b =>
      cases hrest : mapMExcept f l with
      | error e =>
        cases out with
        | nil => simp [mapMExcept, hfa, hrest]
        | cons b' bs =>
          simp only [mapMExcept, hfa, hrest, List.forall₂_cons]
          constructor
          · intro h
            cases h
          · rintro ⟨hb, hbs⟩
            have h2 := (ih bs).mpr hbs
            rw [hrest] at h2
            cases h2
      | ok bs' =>
        cases out with
        | nil => simp [mapMExcept, hfa, hrest]
        | cons b' bs =>
          simp only [mapMExcept, hfa, hrest, List.forall₂_cons, Except.ok.injEq,
            List.cons.injEq]
          constructor
          · rintro ⟨rfl, rfl⟩
            exact ⟨rfl, (ih bs').mp hrest⟩
          · rintro ⟨rfl, hbs⟩
            have h2 := (ih bs).mpr hbs
            rw [hrest] at h2
            cases h2
            exact ⟨rfl, rfl⟩

theorem mapMExcept_error_of_mem {α β ε : Type} (f : α → Except ε β)
    (l : List α) (a : α) (ha : a ∈ l) (e : ε) (hfa : f a = Except.error e) :
    ∃ e', mapMExcept f l = Except.error e' ∧ ∃ a' ∈ l, f a' = Except.error e' := by
  induction l with
  | nil => cases ha
  | cons x l ih =>
    cases hfx : f x with
    | error e' => exact ⟨e', by simp [mapMExcept, hfx], x, List.mem_cons_self x l, hfx⟩
    | ok b =>
      have ha' : a ∈ l := by
        rcases List.mem_cons.mp ha with h | h
        · subst h; rw [hfx] at hfa; cases hfa
        · exact h
      obtain ⟨e', he', a', ha'', hfa'⟩ := ih ha'
      refine ⟨e', by simp [mapMExcept, hfx, he'], a', List.mem_cons_of_mem x ha'', hfa'⟩

theorem mapMExcept_error_source {α β ε : Type} (f : α → Except ε β)
    (l : List α) (e : ε) (h : mapMExcept f l = Except.error e) :
    ∃ a ∈ l, f a = Except.error e := by
  induction l with
  | nil => simp [mapMExcept] at h
  | cons x l ih =>
    cases hfx : f x with
    | error e' =>
      rw [mapMExcept, hfx] at h
      cases h
      exact ⟨x, List.mem_cons_self x l, hfx⟩
    | ok b =>
      rw [mapMExcept, hfx] at h
      cases hrest : mapMExcept f l with
      | error e' =>
        rw [hrest] at h
        cases h
        obtain ⟨a, ha, hfa⟩ := ih hrest
        exact ⟨a, List.mem_cons_of_mem x ha, hfa⟩
      | ok bs => rw [hrest] at h; cases h

theorem selectLogHeight_none_iff (allowed : List Nat) (height : Nat) :
    selectLogHeight allowed height = none ↔ ∀ m ∈ allowed, 2 ^ m < height := by
  induction allowed with
  | nil => simp [selectLogHeight]
  | cons a rest ih =>
    by_cases hha : height ≤ 2 ^ a
    · simp only [selectLogHeight, if_pos hha]
      simp only [List.mem_cons, forall_eq_or_imp]
      constructor
      · intro h; cases h
      · intro h; omega
    · simp only [selectLogHeight, if_neg hha, ih]
      simp only [List.mem_cons, forall_eq_or_imp]
      constructor
      · intro h; exact ⟨by omega, h⟩
      · intro h; exact h.2

theorem selectLogHeight_some_spec (allowed : List Nat) (height : Nat)
    (hasc : allowed.Sorted (· < ·)) (l : Nat)
    (h : selectLogHeight allowed height = some l) :
    l ∈ allowed ∧ height ≤ 2 ^ l ∧
      ∀ m ∈ allowed, height ≤ 2 ^ m → 2 ^ l ≤ 2 ^ m := by
  induction allowed with
  | nil => cases h
  | cons a rest ih =>
    rw [List.sorted_cons] at hasc
    by_cases hha : height ≤ 2 ^ a
    · rw [selectLogHeight, if_pos hha] at h
      cases h
      refine ⟨List.mem_cons_self _ _, hha, ?_⟩
      intro m hm _
      rcases List.mem_cons.mp hm with rfl | hm
      · exact le_rfl
      · exact Nat.pow_le_pow_right (by norm_num) (le_of_lt (hasc.1 m hm))
    · rw [selectLogHeight, if_neg hha] at h
      obtain ⟨hmem, hle, hmin⟩ := ih hasc.2 h
      refine ⟨List.mem_cons_of_mem _ hmem, hle, ?_⟩
      intro m hm hhm
      rcases List.mem_cons.mp hm with rfl | hm
      · omega
      · exact hmin m hm hhm

/-! ## Claim theorems: shape configuration -/

/-- C4: on an ascending, duplicate-free allowed list, the per-chip
selection step shared by `fix_preprocessed_shape` and `fix_shape`
returns the smallest allowed height `≥ h` and panics exactly when `h`
exceeds the tallest allowed height; a successful `fix_preprocessed_shape`
or `fix_shape` stores exactly those per-chip selections, and a chip whose
tallest allowed height is insufficient makes both functions fail. -/
theorem fix_shape_selects_smallest_allowed (cfg : CoreShapeConfig)
    (chip : String) (h : Nat) (allowed : List Nat)
    (hlk : lookupHeights cfg chip = some allowed)
    (hasc : allowed.Sorted (· < ·)) :
    (∀ l, fixChipHeight cfg chip h = Except.ok (chip, l) →
        l ∈ allowed ∧ h ≤ 2 ^ l ∧ ∀ m ∈ allowed, h ≤ 2 ^ m → 2 ^ l ≤ 2 ^ m)
    ∧ ((∃ e, fixChipHeight cfg chip h = Except.error e) ↔
        ∀ m ∈ allowed, 2 ^ m < h)
    ∧ (∀ heights program out,
        fix_preprocessed_shape cfg heights program = Except.ok out →
        ∃ s, out.preprocessed_shape = some ⟨s⟩ ∧
          List.Forall₂ (fun ah e => fixChipHeight cfg ah.1 ah.2 = Except.ok e)
            heights s)
    ∧ (∀ heights record out, fix_shape cfg heights record = Except.ok out →
        ∃ s, out.shape = some ⟨s⟩ ∧
          List.Forall₂ (fun ah e => fixChipHeight cfg ah.1 ah.2 = Except.ok e)
            heights s)
    ∧ (∀ heights program record, (chip, h) ∈ heights →
        (∀ m ∈ allowed, 2 ^ m < h) →
        (∃ e, fix_preprocessed_shape cfg heights program = Except.error e) ∧
        (∃ e, fix_shape cfg heights record = Except.error e)) := by
  refine ⟨?_, ?_, ?_, ?_, ?_⟩
  · intro l hok
    simp only [fixChipHeight, hlk] at hok
    cases hsel : selectLogHeight allowed h with
    | none => rw [hsel] at hok; cases hok
    | some l' =>
      rw [hsel] at hok
      cases hok
      exact selectLogHeight_some_spec allowed h hasc _ hsel
  · simp only [fixChipHeight, hlk]
    cases hsel : selectLogHeight allowed h with
    | none =>
      simp only [hsel]
      rw [← selectLogHeight_none_iff allowed h]
      simp [hsel]
    | some l' =>
      simp only [hsel]
      rw [← selectLogHeight_none_iff allowed h]
      simp [hsel]
  · intro heights program out hok
    rw [fix_preprocessed_shape] at hok
    by_cases hpre : program.preprocessed_shape.isSome
    · rw [if_pos hpre] at hok; cases hok
    · rw [if_neg hpre] at hok
      cases hmap : mapMExcept (fun ah => fixChipHeight cfg ah.1 ah.2) heights with
      | error e => rw [hmap] at hok; cases hok
      | ok s =>
        rw [hmap] at hok
        cases hok
        exact ⟨s, rfl, (mapMExcept_ok_iff _ _ _).mp hmap⟩
  · intro heights record out hok
    rw [fix_shape] at hok
    by_cases hpre : record.program.preprocessed_shape.isNone
    · rw [if_pos hpre] at hok; cases hok
    · rw [if_neg hpre] at hok
      by_cases hsh : record.shape.isSome
      · rw [if_pos hsh] at hok; cases hok
      · rw [if_neg hsh] at hok
        cases hmap : mapMExcept (fun ah => fixChipHeight cfg ah.1 ah.2) heights with
        | error e => rw [hmap] at hok; cases hok
        | ok s =>
          rw [hmap] at hok
          cases hok
          exact ⟨s, rfl, (mapMExcept_ok_iff _ _ _).mp hmap⟩
  · intro heights program record hmem htall
    have hchip : fixChipHeight cfg chip h =
        Except.error (ShapeError.notAllowedAtHeight chip h) := by
      simp only [fixChipHeight, hlk]
      rw [(selectLogHeight_none_iff allowed h).mpr htall]
    obtain ⟨e', hmap, -⟩ :=
      mapMExcept_error_of_mem (fun ah => fixChipHeight cfg ah.1 ah.2)
        heights (chip, h) hmem _ hchip
    constructor
    · rw [fix_preprocessed_shape]
      by_cases hpre : program.preprocessed_shape.isSome
      · exact ⟨_, by rw [if_pos hpre]⟩
      · exact ⟨e', by rw [if_neg hpre, hmap]⟩
    · rw [fix_shape]
      by_cases hpre : record.program.preprocessed_shape.isNone
      · exact ⟨_, by rw [if_pos hpre]⟩
      · by_cases hsh : record.shape.isSome
        · exact ⟨_, by rw [if_neg hpre, if_pos hsh]⟩
        · exact ⟨e', by rw [if_neg hpre, if_neg hsh, hmap]⟩

/-- C4 (witness): one chip "Cpu" with ascending allowed log-heights
`[16, 20]` and natural height `70000` (which needs `2^20`). -/
theorem fix_shape_selects_smallest_allowed_witness :
    (∀ l, fixChipHeight ⟨[("Cpu", [16, 20])]⟩ "Cpu" 70000 = Except.ok ("Cpu", l) →
        l ∈ [16, 20] ∧ 70000 ≤ 2 ^ l ∧
          ∀ m ∈ [16, 20], 70000 ≤ 2 ^ m → 2 ^ l ≤ 2 ^ m)
    ∧ ((∃ e, fixChipHeight ⟨[("Cpu", [16, 20])]⟩ "Cpu" 70000 = Except.error e) ↔
        ∀ m ∈ [16, 20], 2 ^ m < 70000)
    ∧ (∀ heights program out,
        fix_preprocessed_shape ⟨[("Cpu", [16, 20])]⟩ heights program = Except.ok out →
        ∃ s, out.preprocessed_shape = some ⟨s⟩ ∧
          List.Forall₂
            (fun ah e => fixChipHeight ⟨[("Cpu", [16, 20])]⟩ ah.1 ah.2 = Except.ok e)
            heights s)
    ∧ (∀ heights record out,
        fix_shape ⟨[("Cpu", [16, 20])]⟩ heights record = Except.ok out →
        ∃ s, out.shape = some ⟨s⟩ ∧
          List.Forall₂
            (fun ah e => fixChipHeight ⟨[("Cpu", [16, 20])]⟩ ah.1 ah.2 = Except.ok e)
            heights s)
    ∧ (∀ heights program record, ("Cpu", 70000) ∈ heights →
        (∀ m ∈ [16, 20], 2 ^ m < 70000) →
        (∃ e, fix_preprocessed_shape ⟨[("Cpu", [16, 20])]⟩ heights program =
          Except.error e) ∧
        (∃ e, fix_shape ⟨[("Cpu", [16, 20])]⟩ heights record = Except.error e)) :=
  fix_shape_selects_smallest_allowed ⟨[("Cpu", [16, 20])]⟩ "Cpu" 70000 [16, 20]
    (by rfl) (by norm_num [List.sorted_cons])

/-- C5: fixing a preprocessed shape on a program whose slot is already
set fails fatally; fixing a shape on a record whose shape is already set
fails fatally (whatever the second call would have selected); fixing a
shape on a record whose program has no preprocessed shape fails fatally. -/
theorem fix_shape_idempotency_guard (cfg : CoreShapeConfig)
    (heights : List (String × Nat)) (p : Program) (r : ExecutionRecordSh) :
    (p.preprocessed_shape.isSome →
      fix_preprocessed_shape cfg heights p =
        Except.error ShapeError.preprocessedShapeAlreadyFixed)
    ∧ (r.shape.isSome →
      fix_shape cfg heights r = Except.error ShapeError.shapeAlreadyFixed ∨
      fix_shape cfg heights r = Except.error ShapeError.programShapeNotSet)
    ∧ (r.program.preprocessed_shape = none →
      fix_shape cfg heights r = Except.error ShapeError.programShapeNotSet) := by
  refine ⟨?_, ?_, ?_⟩
  · intro hpre
    rw [fix_preprocessed_shape, if_pos hpre]
  · intro hsh
    by_cases hpre : r.program.preprocessed_shape.isNone
    · right; rw [fix_shape, if_pos hpre]
    · left; rw [fix_shape, if_neg hpre, if_pos hsh]
  · intro hpre
    rw [fix_shape, if_pos (by simp [hpre])]

/-- C10: a chip reported in the height listing but missing from
`allowed_log_heights` makes both fixing functions fail fatally (the
`.unwrap()` panic); when every reported chip is configured, the unwrap
panic can never be the failure either function reports. -/
theorem unconfigured_chip_unwrap_fails (cfg : CoreShapeConfig)
    (heights : List (String × Nat)) (p : Program) (r : ExecutionRecordSh) :
    (∀ chip h, (chip, h) ∈ heights → lookupHeights cfg chip = none →
      (∃ e, fix_preprocessed_shape cfg heights p = Except.error e) ∧
      (∃ e, fix_shape cfg heights r = Except.error e))
    ∧ ((∀ x ∈ heights, (lookupHeights cfg x.1).isSome) →
      (∀ e, fix_preprocessed_shape cfg heights p = Except.error e →
        ∀ name, e ≠ ShapeError.unwrapFailed name) ∧
      (∀ e, fix_shape cfg heights r = Except.error e →
        ∀ name, e ≠ ShapeError.unwrapFailed name)) := by
  constructor
  · intro chip h hmem hlk
    have hchip : fixChipHeight cfg chip h =
        Except.error (ShapeError.unwrapFailed chip) := by
      simp only [fixChipHeight, hlk]
    obtain ⟨e', hmap, -⟩ :=
      mapMExcept_error_of_mem (fun ah => fixChipHeight cfg ah.1 ah.2)
        heights (chip, h) hmem _ hchip
    constructor
    · rw [fix_preprocessed_shape]
      by_cases hpre : p.preprocessed_shape.isSome
      · exact ⟨_, by rw [if_pos hpre]⟩
      · exact ⟨e', by rw [if_neg hpre, hmap]⟩
    · rw [fix_shape]
      by_cases hpre : r.program.preprocessed_shape.isNone
      · exact ⟨_, by rw [if_pos hpre]⟩
      · by_cases hsh : r.shape.isSome
        · exact ⟨_, by rw [if_neg hpre, if_pos hsh]⟩
        · exact ⟨e', by rw [if_neg hpre, if_neg hsh, hmap]⟩
  · intro hall
    have hstep : ∀ x ∈ heights, ∀ e,
        fixChipHeight cfg x.1 x.2 = Except.error e →
        e = ShapeError.notAllowedAtHeight x.1 x.2 := by
      intro x hx e he
      obtain ⟨allowed, hlk⟩ := Option.isSome_iff_exists.mp (hall x hx)
      simp only [fixChipHeight, hlk] at he
      cases hsel : selectLogHeight allowed x.2 with
      | none => rw [hsel] at he; cases he; rfl
      | some l => rw [hsel] at he; cases he
    constructor
    · intro e he name
      rw [fix_preprocessed_shape] at he
      by_cases hpre : p.preprocessed_shape.isSome
      · rw [if_pos hpre] at he
        cases he
        simp
      · rw [if_neg hpre] at he
        cases hmap : mapMExcept (fun ah => fixChipHeight cfg ah.1 ah.2) heights with
        | error e' =>
          rw [hmap] at he
          cases he
          obtain ⟨x, hx, hfx⟩ := mapMExcept_error_source _ _ _ hmap
          rw [hstep x hx _ hfx]
          simp
        | ok s => rw [hmap] at he; cases he
    · intro e he name
      rw [fix_shape] at he
      by_cases hpre : r.program.preprocessed_shape.isNone
      · rw [if_pos hpre] at he
        cases he
        simp
      · rw [if_neg hpre] at he
        by_cases hsh : r.shape.isSome
        · rw [if_pos hsh] at he
          cases he
          simp
        · rw [if_neg hsh] at he
          cases hmap : mapMExcept (fun ah => fixChipHeight cfg ah.1 ah.2) heights with
          | error e' =>
            rw [hmap] at he
            cases he
            obtain ⟨x, hx, hfx⟩ := mapMExcept_error_source _ _ _ hmap
            rw [hstep x hx _ hfx]
            simp
          | ok s => rw [hmap] at he; cases he

theorem multiCartesianProduct_mem {α : Type} (ls : List (List α)) (hne : ls ≠ [])
    (x : List α) :
    x ∈ multiCartesianProduct ls ↔ List.Forall₂ (fun l a => a ∈ l) ls x := by
  induction ls generalizing x with
  | nil => exact absurd rfl hne
  | cons l ls ih =>
    cases ls with
    | nil =>
      simp only [multiCartesianProduct, List.mem_map]
      constructor
      · rintro ⟨a, ha, rfl⟩
        exact List.Forall₂.cons ha List.Forall₂.nil
      · intro h
        cases h with
        | cons ha htail =>
          cases htail
          exact ⟨_, ha, rfl⟩
    | cons l2 ls2 =>
      simp only [multiCartesianProduct, List.mem_flatMap, List.mem_map]
      constructor
      · rintro ⟨a, ha, r, hr, rfl⟩
        exact List.Forall₂.cons ha ((ih (by simp) r).mp hr)
      · intro h
        cases h with
        | cons ha htail =>
          exact ⟨_, ha, _, (ih (by simp) _).mpr htail, rfl⟩

/-- C6: membership in `generate_all_allowed_shapes` is exactly "per
configured chip, choose absence or one allowed height, and keep the
present entries"; on the two-chip configuration `A:[16,20]`, `B:[18]` the
enumeration is exactly the 6 distinct shapes, none repeated. -/
theorem generate_all_allowed_shapes_correct :
    (∀ (cfg : CoreShapeConfig), cfg.allowed_log_heights ≠ [] →
      ∀ s, s ∈ generate_all_allowed_shapes cfg ↔
        ∃ choices,
          List.Forall₂ (fun p nh =>
              nh = (p.1, (none : Option Nat)) ∨ ∃ hh ∈ p.2, nh = (p.1, some hh))
            cfg.allowed_log_heights choices ∧
          s = choices.filterMap (fun nh => nh.2.map (fun hh => (nh.1, hh))))
    ∧ generate_all_allowed_shapes ⟨[("A", [16, 20]), ("B", [18])]⟩ =
        [[], [("B", 18)], [("A", 16)], [("A", 16), ("B", 18)],
         [("A", 20)], [("A", 20), ("B", 18)]]
    ∧ (generate_all_allowed_shapes ⟨[("A", [16, 20]), ("B", [18])]⟩).Nodup
    ∧ (generate_all_allowed_shapes ⟨[("A", [16, 20]), ("B", [18])]⟩).length = 6 := by
  refine ⟨?_, by decide, by decide, by decide⟩
  intro cfg hne s
  rw [generate_all_allowed_shapes, List.mem_map]
  have hmapne : cfg.allowed_log_heights.map (fun p =>
      (p.1, (none : Option Nat)) :: p.2.map (fun h => (p.1, some h))) ≠ [] := by
    simpa using hne
  constructor
  · rintro ⟨choices, hch, rfl⟩
    rw [multiCartesianProduct_mem _ hmapne] at hch
    rw [List.forall₂_map_left_iff] at hch
    refine ⟨choices, ?_, rfl⟩
    refine hch.imp ?_
    intro p nh hmem
    rcases List.mem_cons.mp hmem with hmem | hmem
    · exact Or.inl hmem
    · obtain ⟨hh, hhh, heq⟩ := List.mem_map.mp hmem
      exact Or.inr ⟨hh, hhh, heq.symm⟩
  · rintro ⟨choices, hch, rfl⟩
    refine ⟨choices, ?_, rfl⟩
    rw [multiCartesianProduct_mem _ hmapne, List.forall₂_map_left_iff]
    refine hch.imp ?_
    intro p nh hmem
    rcases hmem with rfl | ⟨hh, hhh, rfl⟩
    · exact List.mem_cons_self _ _
    · exact List.mem_cons_of_mem _ (List.mem_map.mpr ⟨hh, hhh, rfl⟩)

/-! ## Helper lemmas about `eval` and the trace -/

theorem boolean_constraint_iff {R : Type} [Field R] (x : R) :
    x * (x - 1) = 0 ↔ x = 0 ∨ x = 1 := by
  rw [mul_eq_zero, sub_eq_zero]

theorem gated_constraint_iff {R : Type} [Field R] (g x y : R) :
    g * (x - y) = 0 ↔ (g ≠ 0 → x = y) := by
  rw [mul_eq_zero, sub_eq_zero]
  constructor
  · rintro (h | h) hg
    · exact absurd h hg
    · exact h
  · intro h
    by_cases hg : g = 0
    · exact Or.inl hg
    · exact Or.inr (h hg)

theorem eval_constraints_sub_iff (R : Type) [Field R] (l : FieldLTUCols R) :
    (∀ e ∈ eval_constraints_sub R l, e = 0) ↔
      (l.lt = 0 ∨ l.lt = 1) ∧
      (∀ i, l.diff_bits i = 0 ∨ l.diff_bits i = 1) ∧
      (l.is_real ≠ 0 →
        l.b - l.c + ((2 ^ LTU_NB_BITS : Nat) : R) =
          ∑ i : Fin (LTU_NB_BITS + 1), l.diff_bits i * ((2 ^ (i : Nat) : Nat) : R)) ∧
      (l.is_real ≠ 0 → l.lt = 1 - l.diff_bits (Fin.last LTU_NB_BITS)) := by
  rw [eval_constraints_sub]
  simp only [List.forall_mem_append, List.forall_mem_cons, List.forall_mem_singleton,
    List.forall_mem_ofFn_iff, boolean_constraint_iff, gated_constraint_iff, sub_self]
  constructor
  · rintro ⟨⟨⟨-, hlt, -⟩, hbits⟩, hg1, hg2, -⟩
    refine ⟨?_, fun i => ?_, hg1, hg2⟩
    · by_cases h0 : l.lt = 0
      · exact Or.inl h0
      · exact Or.inr (hlt h0)
    · by_cases h0 : l.diff_bits i = 0
      · exact Or.inl h0
      · exact Or.inr (hbits i h0)
  · rintro ⟨hlt, hbits, hg1, hg2⟩
    refine ⟨⟨⟨trivial, fun h0 => ?_, by simp⟩, fun j hj => ?_⟩, hg1, hg2, by simp⟩
    · rcases hlt with h | h
      · exact absurd h h0
      · exact h
    · rcases hbits j with h | h
      · exact absurd h hj
      · exact h

theorem flatten_ofFn_singleton {α : Type} (n : Nat) (f : Fin n → α) :
    (List.ofFn fun j => [f j]).flatten = List.ofFn f := by
  induction n with
  | zero => simp
  | succ n ih => simp [List.ofFn_succ, ih]

/-- C7: on every packed physical row, `eval` asserts — per logical
sub-row — that `lt` and all 30 `diff_bits` are boolean (ungated), that
gated by `is_real` the power-of-two resum of the bits equals
`b - c + 2^29` and `lt` equals one minus the top bit; it emits exactly
one interaction claim per sub-row with multiplicity `is_real`; and the
degree-normalization dummy identity heads each sub-row's constraints. -/
theorem eval_constraints_characterization (R : Type) [Field R]
    (row : PackedFieldLTUCols R) :
    ((∀ e ∈ eval_constraints R row, e = 0) ↔
      ∀ j : Fin WIDTH,
        ((row.packed_chips j).lt = 0 ∨ (row.packed_chips j).lt = 1) ∧
        (∀ i, (row.packed_chips j).diff_bits i = 0 ∨
          (row.packed_chips j).diff_bits i = 1) ∧
        ((row.packed_chips j).is_real ≠ 0 →
          (row.packed_chips j).b - (row.packed_chips j).c +
              ((2 ^ LTU_NB_BITS : Nat) : R) =
            ∑ i : Fin (LTU_NB_BITS + 1),
              (row.packed_chips j).diff_bits i * ((2 ^ (i : Nat) : Nat) : R)) ∧
        ((row.packed_chips j).is_real ≠ 0 →
          (row.packed_chips j).lt =
            1 - (row.packed_chips j).diff_bits (Fin.last LTU_NB_BITS)))
    ∧ eval_interactions R row =
        List.ofFn (fun j : Fin WIDTH =>
          FieldInteraction.mk (row.packed_chips j).lt (row.packed_chips j).b
            (row.packed_chips j).c (row.packed_chips j).is_real)
    ∧ (eval_interactions R row).length = WIDTH
    ∧ (∀ j : Fin WIDTH,
        (eval_constraints_sub R (row.packed_chips j)).head? =
          some ((row.packed_chips j).b * (row.packed_chips j).b *
              (row.packed_chips j).b -
            (row.packed_chips j).b * (row.packed_chips j).b *
              (row.packed_chips j).b)) := by
  have hint : eval_interactions R row =
      List.ofFn (fun j : Fin WIDTH =>
        FieldInteraction.mk (row.packed_chips j).lt (row.packed_chips j).b
          (row.packed_chips j).c (row.packed_chips j).is_real) := by
    rw [eval_interactions]
    exact flatten_ofFn_singleton WIDTH _
  refine ⟨?_, hint, by rw [hint, List.length_ofFn], fun j => rfl⟩
  have hmem : (∀ e ∈ eval_constraints R row, e = 0) ↔
      ∀ j : Fin WIDTH, ∀ e ∈ eval_constraints_sub R (row.packed_chips j), e = 0 := by
    simp only [eval_constraints, List.mem_flatten, List.mem_ofFn]
    constructor
    · intro h j e he
      exact h e ⟨_, ⟨j, rfl⟩, he⟩
    · rintro h e ⟨l, ⟨j, rfl⟩, he⟩
      exact h j e he
  rw [hmem]
  exact forall_congr' fun j => eval_constraints_sub_iff R (row.packed_chips j)

/-! ## Helper lemmas about padding and packing -/

theorem getD_replicate {α : Type} (a : α) :
    ∀ (n i : Nat), (List.replicate n a).getD i a = a
  | 0, _ => rfl
  | _ + 1, 0 => rfl
  | n + 1, i + 1 => getD_replicate a n i

theorem eventLoopIter_ok (R : Type) [CommRing R] (row : List R) (i : Nat)
    (event : FieldEvent) (r : List R)
    (h : eventLoopIter R row i event = Except.ok r) : r = row := by
  simp only [eventLoopIter] at h
  split at h
  · cases h
  · cases h
    rfl

theorem threadLoop_ok {σ α ε : Type} (f : σ → α → Except ε σ)
    (hf : ∀ s a s', f s a = Except.ok s' → s' = s) (l : List α) :
    ∀ (s r : σ), threadLoop f l s = Except.ok r → r = s := by
  induction l with
  | nil =>
    intro s r h
    cases h
    rfl
  | cons a rest ih =>
    intro s r h
    rw [threadLoop] at h
    cases hit : f s a with
    | error e => rw [hit] at h; cases h
    | ok s' =>
      rw [hit] at h
      rw [ih s' r h, hf s a s' hit]

theorem eventLoop_ok (R : Type) [CommRing R] (l : List (Nat × FieldEvent))
    (row r : List R) (h : eventLoop R l row = Except.ok r) : r = row := by
  have hf : ∀ (s : List R) (a : Nat × FieldEvent) (s' : List R),
      eventLoopIter R s a.1 a.2 = Except.ok s' → s' = s :=
    fun s a s' hs => eventLoopIter_ok R s a.1 a.2 s' hs
  simp only [eventLoop] at h
  exact threadLoop_ok _ hf l row r h

/-- The copy bug, in general: every packed physical row that
`generate_trace` emits without panicking is the all-zero row. -/
theorem genPackedRow_ok (R : Type) [CommRing R] (events : List FieldEvent)
    (r : List R) (h : genPackedRow R events = Except.ok r) :
    r = List.replicate (NUM_FIELD_COLS * WIDTH) 0 :=
  eventLoop_ok R events.enum _ r h

theorem chunksExact_length :
    ∀ (l : List FieldEvent), (chunksExact l).length = l.length / 4
  | [] => by simp [chunksExact]
  | [_] => by simp [chunksExact]
  | [_, _] => by simp [chunksExact]
  | [_, _, _] => by simp [chunksExact]
  | a :: b :: c :: d :: rest => by
    have ih := chunksExact_length rest
    simp only [chunksExact, List.length_cons, ih]
    omega

theorem chunksExact_chunk_length :
    ∀ (l : List FieldEvent), ∀ ch ∈ chunksExact l, ch.length = 4
  | [], ch, hch => by cases hch
  | [_], ch, hch => by cases hch
  | [_, _], ch, hch => by cases hch
  | [_, _, _], ch, hch => by cases hch
  | a :: b :: c :: d :: rest, ch, hch => by
    rcases List.mem_cons.mp hch with rfl | h
    · rfl
    · exact chunksExact_chunk_length rest ch h

theorem chunksExact_flatten :
    ∀ (l : List FieldEvent),
      (chunksExact l).flatten = l.take (l.length / 4 * 4)
  | [] => by simp [chunksExact]
  | [_] => by simp [chunksExact]
  | [_, _] => by simp [chunksExact]
  | [_, _, _] => by simp [chunksExact]
  | a :: b :: c :: d :: rest => by
    have ih := chunksExact_flatten rest
    have h4 : (a :: b :: c :: d :: rest).length / 4 * 4 =
        4 + rest.length / 4 * 4 := by
      simp only [List.length_cons]
      omega
    rw [h4, List.take_add]
    simp only [chunksExact, List.flatten_cons, ih]
    rfl

theorem forall₂_mem_right {α β : Type} {P : α → β → Prop} :
    ∀ {l1 : List α} {l2 : List β}, List.Forall₂ P l1 l2 →
      ∀ b ∈ l2, ∃ a ∈ l1, P a b := by
  intro l1 l2 h
  induction h with
  | nil => intro b hb; cases hb
  | cons hab _ ih =>
    intro b hb
    rcases List.mem_cons.mp hb with rfl | hb
    · exact ⟨_, List.mem_cons_self _ _, hab⟩
    · obtain ⟨a, ha, hP⟩ := ih b hb
      exact ⟨a, List.mem_cons_of_mem _ ha, hP⟩

/-! ## Claim theorems: padding and packing -/

/-- C8: padding leaves the original values unchanged and appends only
zeros; an all-zero physical row reads back as all-zero sub-rows, and the
all-zero sub-rows satisfy every constraint `eval` asserts — the gated
ones because `is_real = 0`, and the ungated boolean ones because `0` is
boolean.  (`pad_to_power_of_two` itself is modelled from the spec; it is
not among the shown sources.) -/
theorem padding_rows_inert (R : Type) [Field R] (values : List R) :
    (pad_to_power_of_two R (NUM_FIELD_COLS * WIDTH) values).take values.length
      = values
    ∧ (∀ x ∈ (pad_to_power_of_two R (NUM_FIELD_COLS * WIDTH) values).drop
        values.length, x = 0)
    ∧ (∀ i, subRowAt R (List.replicate (NUM_FIELD_COLS * WIDTH) (0 : R)) i =
        zeroCols R)
    ∧ (∀ e ∈ eval_constraints R ⟨fun _ => zeroCols R⟩, e = 0) := by
  refine ⟨List.take_left _ _, ?_, ?_, ?_⟩
  · intro x hx
    rw [pad_to_power_of_two, List.drop_left] at hx
    exact (List.eq_of_mem_replicate hx)
  · intro i
    simp [subRowAt, zeroCols, getD_replicate]
  · intro e he
    simp only [eval_constraints, List.mem_flatten, List.mem_ofFn] at he
    obtain ⟨l, ⟨j, rfl⟩, he⟩ := he
    have hz : ∀ x ∈ eval_constraints_sub R (zeroCols R), x = 0 := by
      rw [eval_constraints_sub_iff]
      exact ⟨Or.inl rfl, fun _ => Or.inl rfl,
        fun h0 => absurd rfl h0, fun h0 => absurd rfl h0⟩
    exact hz e he

/-- C9: `generate_trace` processes its events in complete groups of
`WIDTH = 4`: when no group panics it emits exactly `⌊n / 4⌋` packed
physical rows before padding, each of physical width
`NUM_FIELD_COLS * WIDTH` (the logical column count times 4), the groups
cover exactly the first `⌊n / 4⌋ * 4` events, and any trailing partial
group is dropped. -/
theorem generate_trace_packing (R : Type) [CommRing R]
    (field_events : List FieldEvent) (rows : List (List R))
    (hok : generateTraceRows R field_events = Except.ok rows) :
    rows.length = field_events.length / WIDTH
    ∧ (∀ ch ∈ chunksExact field_events, ch.length = WIDTH)
    ∧ (chunksExact field_events).flatten =
        field_events.take (field_events.length / WIDTH * WIDTH)
    ∧ (∀ row ∈ rows, row.length = NUM_FIELD_COLS * WIDTH) := by
  rw [generateTraceRows] at hok
  have hF := (mapMExcept_ok_iff _ _ _).mp hok
  refine ⟨?_, ?_, ?_, ?_⟩
  · rw [← hF.length_eq, chunksExact_length]
    rfl
  · intro ch hch
    rw [chunksExact_chunk_length field_events ch hch]
    rfl
  · rw [chunksExact_flatten]
    rfl
  · intro row hrow
    obtain ⟨ch, -, hP⟩ := forall₂_mem_right hF row hrow
    rw [genPackedRow_ok R ch row hP, List.length_replicate]

set_option maxRecDepth 100000 in
/-- C9 (witness): ten events in range; two full groups are emitted (the
two trailing events are dropped) and each emitted physical row has the
full packed width. -/
theorem generate_trace_packing_witness :
    (List.replicate 2 (List.replicate (NUM_FIELD_COLS * WIDTH) (0 : Int))).length =
        (List.replicate 10 (FieldEvent.mk 5 10 true)).length / WIDTH
    ∧ (∀ ch ∈ chunksExact (List.replicate 10 (FieldEvent.mk 5 10 true)),
        ch.length = WIDTH)
    ∧ (chunksExact (List.replicate 10 (FieldEvent.mk 5 10 true))).flatten =
        (List.replicate 10 (FieldEvent.mk 5 10 true)).take
          ((List.replicate 10 (FieldEvent.mk 5 10 true)).length / WIDTH * WIDTH)
    ∧ (∀ row ∈ List.replicate 2 (List.replicate (NUM_FIELD_COLS * WIDTH) (0 : Int)),
        row.length = NUM_FIELD_COLS * WIDTH) :=
  generate_trace_packing Int (List.replicate 10 (FieldEvent.mk 5 10 true))
    (List.replicate 2 (List.replicate (NUM_FIELD_COLS * WIDTH) 0)) (by rfl)

end SP1
